import Mathlib

/-!
# Verification of the Workload Management System (src/Main.py)

A shallow embedding of the restaurant order-dispatch system: the data model
(`Product`, `OrderItem`, `Order`, `Staff`), the system state
(`WorkloadManagementSystem`, shortened to `WMS`), and its public operations
(`staff_login`, `staff_logout`, `place_order`, `process_orders`,
`complete_order_item`, `get_available_products`, `get_orders_by_status`).

Modelling conventions:
* Python `float` prices are modelled as `ℚ` (all sample prices are exact
  decimals, and no claim depends on floating-point rounding).
* `datetime.now()` and `uuid.uuid4().hex[:3].upper()` are nondeterministic
  environment inputs; each operation that consumes them takes them as
  explicit parameters (`Env`, or a plain `Nat` timestamp).
* Python dicts (`staff_members`, `products`) are insertion-ordered with
  unique keys; they are modelled as association lists in insertion order.
* Mutable heap objects are modelled with value semantics.  In
  `process_orders` the source mutates an order's status and then calls
  `orders_queue.remove(order)`; `list.remove` finds the mutated object
  itself (identity short-circuit, and any equal-valued duplicate still has
  status PLACED, unequal to the freshly updated WIP object), so at value
  level the net effect is removal of the first occurrence of the order's
  pre-update value — modelled with `List.erase` on the snapshot value.
-/

inductive OrderStatus where
  | PLACED
  | WIP
  | COMPLETE
deriving DecidableEq, Repr

inductive ProductType where
  | VEG_PIZZA
  | NV_PIZZA
  | SANDWICH
  | BURGER
  | DRINKS
deriving DecidableEq, Repr

/-- `Product` dataclass: code, description, price, product_type. -/
structure Product where
  code : String
  description : String
  price : ℚ
  product_type : ProductType
deriving DecidableEq, Repr

/-- `OrderItem` dataclass: product_code, quantity, toppings, price. -/
structure OrderItem where
  product_code : String
  quantity : Int
  toppings : List String
  price : ℚ
deriving DecidableEq, Repr

/-- `Order` dataclass: order_number, items, status, created_at, completed_at.
Timestamps are abstract `Nat` instants supplied by the environment. -/
structure Order where
  order_number : String
  items : List OrderItem
  status : OrderStatus
  created_at : Nat
  completed_at : Option Nat
deriving DecidableEq, Repr

/-- `Order.update_status`: sets the status, and stamps `completed_at` with the
current time exactly when the new status is COMPLETE (`now` is the
environment's `datetime.now()` at the call). -/
def Order.update_status (o : Order) (new_status : OrderStatus) (now : Nat) : Order :=
  { o with
    status := new_status
    completed_at :=
      if new_status = OrderStatus.COMPLETE then some now else o.completed_at }

/-- `Staff` dataclass: id, name, skills, logged_in. -/
structure Staff where
  id : String
  name : String
  skills : List ProductType
  logged_in : Bool
deriving DecidableEq, Repr

/-- `Staff.can_handle_product`. -/
def Staff.can_handle_product (s : Staff) (pt : ProductType) : Bool :=
  s.skills.contains pt

/-- The state of `WorkloadManagementSystem`.  `staff_members` and `products`
are the dicts' entries in insertion order (keys are the `id`/`code` fields);
`product_group_mapping` maps every `ProductType` to its staff list. -/
structure WMS where
  orders_queue : List Order
  staff_members : List Staff
  products : List (String × Product)
  product_group_mapping : ProductType → List Staff

/-- Dict lookup `self.products[code]` / `code in self.products`. -/
def lookupProduct (products : List (String × Product)) (code : String) : Option Product :=
  (products.find? (fun p => p.1 = code)).map Prod.snd

/-- `_update_product_group_mapping`: rebuilds the category → staff map from
scratch; for each category, logged-in staff whose skills contain it are
appended in registry (insertion) order. -/
def update_product_group_mapping (staffList : List Staff) : ProductType → List Staff :=
  fun pt =>
    staffList.foldl
      (fun acc st =>
        if st.logged_in && st.skills.contains pt then acc ++ [st] else acc) []

/-- `staff_login`: marks the staff member logged in and rebuilds the mapping;
returns `false` (state unchanged, no rebuild) when the id is unknown. -/
def staff_login (s : WMS) (staff_id : String) : WMS × Bool :=
  if s.staff_members.any (fun st => st.id = staff_id) then
    let sm := s.staff_members.map
      (fun st => if st.id = staff_id then { st with logged_in := true } else st)
    ({ s with staff_members := sm
              product_group_mapping := update_product_group_mapping sm }, true)
  else
    (s, false)

/-- `staff_logout`: symmetric to `staff_login`. -/
def staff_logout (s : WMS) (staff_id : String) : WMS × Bool :=
  if s.staff_members.any (fun st => st.id = staff_id) then
    let sm := s.staff_members.map
      (fun st => if st.id = staff_id then { st with logged_in := false } else st)
    ({ s with staff_members := sm
              product_group_mapping := update_product_group_mapping sm }, true)
  else
    (s, false)

/-- One requested item of `place_order`: the Python input dict
`{product_code, quantity, toppings}` with `.get` defaults already applied
(`quantity` defaults to 1, `toppings` to `[]`; an absent or non-string
product_code behaves like an unknown code). -/
structure ItemRequest where
  product_code : String
  quantity : Int
  toppings : List String
deriving DecidableEq, Repr

/-- Environment inputs consumed by `place_order`: `now` is
`datetime.now()` as an abstract instant, `dateStr` its `%d%m%Y` rendering,
and `suffix` the three uppercased hex characters drawn from `uuid.uuid4()`. -/
structure Env where
  now : Nat
  dateStr : String
  suffix : String
deriving DecidableEq, Repr

/-- `place_order`: resolves each requested item against the catalog, dropping
unknown product codes; raises `ValueError` (modelled as `none`, state
unchanged) when no item survives; otherwise appends the new PLACED order to
the queue tail and returns it. -/
def place_order (env : Env) (s : WMS) (items : List ItemRequest) : WMS × Option Order :=
  let order_number := "ORD" ++ env.dateStr ++ env.suffix
  let order_items := items.filterMap
    (fun item =>
      match lookupProduct s.products item.product_code with
      | none => none
      | some product =>
          some { product_code := item.product_code
                 quantity := item.quantity
                 toppings := item.toppings
                 price := product.price * (item.quantity : ℚ) })
  if order_items.isEmpty then
    (s, none)
  else
    let order : Order :=
      { order_number := order_number
        items := order_items
        status := OrderStatus.PLACED
        created_at := env.now
        completed_at := none }
    ({ s with orders_queue := s.orders_queue ++ [order] }, some order)

/-- The inner per-order check of `process_orders`: every item's product
category has at least one available staff member in the mapping.  The source
looks each item's code up with `self.products[item.product_code]`, which
would raise `KeyError` on an unknown code; queued orders only ever contain
catalog codes (`reachable_codes_valid`), so that branch is dead and is
modelled as the item being unassignable. -/
def order_assignable (s : WMS) (o : Order) : Bool :=
  o.items.all
    (fun item =>
      match lookupProduct s.products item.product_code with
      | some product => !(s.product_group_mapping product.product_type).isEmpty
      | none => false)

/-- The guard of the dispatch loop: the order is PLACED and fully assignable. -/
def dispatchable (s : WMS) (o : Order) : Bool :=
  (o.status == OrderStatus.PLACED) && order_assignable s o

/-- The loop of `process_orders`: iterates over the snapshot copy of the
queue; each dispatchable order is set to WIP, appended to the processed
list, and removed (first occurrence) from the live queue.  `Order.update_status`
with WIP ignores its time argument, so no environment input is needed. -/
def processGo (s : WMS) : List Order → List Order → List Order → List Order × List Order
  | [], queue, processed => (queue, processed)
  | o :: rest, queue, processed =>
      if dispatchable s o then
        processGo s rest (queue.erase o)
          (processed ++ [o.update_status OrderStatus.WIP 0])
      else
        processGo s rest queue processed

/-- `process_orders`: runs the dispatch loop over a copy of the queue and
returns the new state together with the processed (newly WIP) orders. -/
def process_orders (s : WMS) : WMS × List Order :=
  ({ s with orders_queue := (processGo s s.orders_queue s.orders_queue []).1 },
   (processGo s s.orders_queue s.orders_queue []).2)

/-- Replaces the first element satisfying `p` by its image under `f`
(the value-level effect of mutating the object `next(...)` found). -/
def updateFirst (p : α → Bool) (f : α → α) : List α → List α
  | [] => []
  | x :: xs => if p x then f x :: xs else x :: updateFirst p f xs

/-- `complete_order_item`: finds the first queued order with the given
order_number (`next(...)`); returns `false` with no mutation when absent;
otherwise sets that whole order to COMPLETE (stamping `completed_at := now`)
and returns `true`.  The `product_code` argument is never inspected. -/
def complete_order_item (s : WMS) (order_number : String) (product_code : String)
    (now : Nat) : WMS × Bool :=
  match s.orders_queue.find? (fun o => o.order_number = order_number) with
  | none => (s, false)
  | some _ =>
      let q := updateFirst (fun o => o.order_number = order_number)
        (fun o => o.update_status OrderStatus.COMPLETE now) s.orders_queue
      ({ s with orders_queue := q }, true)

/-- `get_available_products`: products whose category has available staff. -/
def get_available_products (s : WMS) : List Product :=
  (s.products.map Prod.snd).filter
    (fun p => !(s.product_group_mapping p.product_type).isEmpty)

/-- `get_orders_by_status`. -/
def get_orders_by_status (s : WMS) (status : OrderStatus) : List Order :=
  s.orders_queue.filter (fun o => o.status = status)

/-- The product catalog seeded by `_initialize_sample_data`. -/
def sampleProducts : List (String × Product) :=
  [("P001", ⟨"P001", "Margherita Pizza", (899 : ℚ) / 100, ProductType.VEG_PIZZA⟩),
   ("P002", ⟨"P002", "Pepperoni Pizza", (1099 : ℚ) / 100, ProductType.NV_PIZZA⟩),
   ("S001", ⟨"S001", "Veg Sandwich", (599 : ℚ) / 100, ProductType.SANDWICH⟩),
   ("B001", ⟨"B001", "Cheeseburger", (799 : ℚ) / 100, ProductType.BURGER⟩),
   ("D001", ⟨"D001", "Soft Drink", (199 : ℚ) / 100, ProductType.DRINKS⟩)]

/-- The staff roster seeded by `_initialize_sample_data` (nobody logged in). -/
def sampleStaff : List Staff :=
  [⟨"S001", "Chandler", [ProductType.VEG_PIZZA, ProductType.BURGER], false⟩,
   ⟨"S002", "Joey", [ProductType.VEG_PIZZA, ProductType.NV_PIZZA,
                     ProductType.SANDWICH, ProductType.BURGER], false⟩,
   ⟨"S003", "Rachel", [ProductType.NV_PIZZA], false⟩,
   ⟨"S004", "Monica", [ProductType.SANDWICH], false⟩,
   ⟨"S005", "Ross", [ProductType.DRINKS], false⟩]

/-- `WorkloadManagementSystem.__init__`: empty queue, sample data, mapping
built by `_update_product_group_mapping`. -/
def WMS.init : WMS :=
  { orders_queue := []
    staff_members := sampleStaff
    products := sampleProducts
    product_group_mapping := update_product_group_mapping sampleStaff }

/-- One public operation together with its environment inputs. -/
inductive Op where
  | login (staff_id : String)
  | logout (staff_id : String)
  | placeOrder (env : Env) (items : List ItemRequest)
  | processOrders
  | completeOrderItem (order_number : String) (product_code : String) (now : Nat)

/-- The state transition of one public operation. -/
def applyOp (s : WMS) : Op → WMS
  | Op.login staff_id => (staff_login s staff_id).1
  | Op.logout staff_id => (staff_logout s staff_id).1
  | Op.placeOrder env items => (place_order env s items).1
  | Op.processOrders => (process_orders s).1
  | Op.completeOrderItem n pc now => (complete_order_item s n pc now).1

/-- States reachable from the freshly constructed system by public operations. -/
inductive Reachable : WMS → Prop where
  | init : Reachable WMS.init
  | step (s : WMS) (op : Op) : Reachable s → Reachable (applyOp s op)

/-- The status of the first tracked (queued) order with a given order_number —
the system's own notion of looking an order up, as used by
`complete_order_item`. -/
def statusOf (s : WMS) (n : String) : Option OrderStatus :=
  (s.orders_queue.find? (fun o => o.order_number = n)).map Order.status

/-! ## Characterization lemmas for the operations -/

theorem foldl_append_filter (p : Staff → Bool) (l : List Staff) (acc : List Staff) :
    l.foldl (fun acc st => if p st then acc ++ [st] else acc) acc = acc ++ l.filter p := by
  induction l generalizing acc with
  | nil => simp
  | cons st rest ih =>
      by_cases h : p st <;> simp [List.filter_cons, h, ih]

/-- The rebuilt mapping for a category is exactly the registry filtered to
logged-in staff whose skills contain the category, in registry order. -/
theorem update_product_group_mapping_eq_filter (l : List Staff) (pt : ProductType) :
    update_product_group_mapping l pt
      = l.filter (fun st => st.logged_in && st.skills.contains pt) := by
  show l.foldl (fun acc st => if st.logged_in && st.skills.contains pt then acc ++ [st] else acc) []
      = l.filter (fun st => st.logged_in && st.skills.contains pt)
  rw [foldl_append_filter]
  exact List.nil_append _

theorem processGo_spec (s : WMS) (l q p : List Order) :
    processGo s l q p
      = ((l.filter (dispatchable s)).foldl List.erase q,
         p ++ (l.filter (dispatchable s)).map (fun o => o.update_status OrderStatus.WIP 0)) := by
  induction l generalizing q p with
  | nil => simp [processGo]
  | cons o rest ih =>
      by_cases h : dispatchable s o <;>
        simp [processGo, h, List.filter_cons, ih]

theorem foldl_erase_cons (xs : List Order) (o : Order) (q : List Order)
    (h : ∀ x ∈ xs, x ≠ o) :
    xs.foldl List.erase (o :: q) = o :: xs.foldl List.erase q := by
  induction xs generalizing q with
  | nil => rfl
  | cons x rest ih =>
      have hx : x ≠ o := h x (by simp)
      have h' : ∀ y ∈ rest, y ≠ o := fun y hy => h y (by simp [hy])
      have : (o :: q).erase x = o :: q.erase x := by
        rw [List.erase_cons_tail]
        simp [Ne.symm hx]
      simp only [List.foldl_cons, this, ih _ h']

theorem filter_foldl_erase (ds : Order → Bool) (l : List Order) :
    (l.filter ds).foldl List.erase l = l.filter (fun o => !(ds o)) := by
  induction l with
  | nil => rfl
  | cons o rest ih =>
      by_cases h : ds o
      · simp only [List.filter_cons, h, if_pos, List.foldl_cons, List.erase_cons_head]
        simpa [h] using ih
      · have hmem : ∀ x ∈ rest.filter ds, x ≠ o := by
          intro x hx
          have hdx : ds x = true := (List.mem_filter.mp hx).2
          intro hxo
          rw [hxo] at hdx
          exact h hdx
        simp only [List.filter_cons, h, if_neg, Bool.false_eq_true, not_false_iff]
        rw [foldl_erase_cons _ _ _ hmem, ih]
        simp [h]

/-- The queue after a dispatch pass: the orders failing the dispatch guard,
in their original relative order. -/
theorem process_orders_queue (s : WMS) :
    (process_orders s).1.orders_queue
      = s.orders_queue.filter (fun o => !(dispatchable s o)) := by
  show (processGo s s.orders_queue s.orders_queue []).1 = _
  rw [processGo_spec]
  exact filter_foldl_erase _ _

/-- The processed list of a dispatch pass: the dispatchable orders in queue
order, each set to WIP. -/
theorem process_orders_processed (s : WMS) :
    (process_orders s).2
      = (s.orders_queue.filter (dispatchable s)).map
          (fun o => o.update_status OrderStatus.WIP 0) := by
  show (processGo s s.orders_queue s.orders_queue []).2 = _
  rw [processGo_spec]
  exact List.nil_append _

theorem process_orders_products (s : WMS) :
    (process_orders s).1.products = s.products := rfl

theorem process_orders_mapping (s : WMS) :
    (process_orders s).1.product_group_mapping = s.product_group_mapping := rfl

theorem process_orders_staff (s : WMS) :
    (process_orders s).1.staff_members = s.staff_members := rfl

theorem dispatchable_queue_irrel (s : WMS) (q : List Order) (o : Order) :
    dispatchable { s with orders_queue := q } o = dispatchable s o := rfl

/-! ## Reachable-state invariants -/

theorem updateFirst_mem {α : Type} {p : α → Bool} {f : α → α} {l : List α} {x : α}
    (hx : x ∈ updateFirst p f l) : x ∈ l ∨ ∃ y ∈ l, x = f y := by
  induction l with
  | nil => simp [updateFirst] at hx
  | cons a as ih =>
      unfold updateFirst at hx
      by_cases hp : p a
      · simp only [hp, if_pos, List.mem_cons] at hx
        rcases hx with hx | hx
        · exact Or.inr ⟨a, by simp, hx⟩
        · exact Or.inl (List.mem_cons_of_mem _ hx)
      · simp only [hp, Bool.false_eq_true, if_neg, List.mem_cons, not_false_iff] at hx
        rcases hx with hx | hx
        · exact Or.inl (by simp [hx])
        · rcases ih hx with h | ⟨y, hy, hxy⟩
          · exact Or.inl (List.mem_cons_of_mem _ h)
          · exact Or.inr ⟨y, List.mem_cons_of_mem _ hy, hxy⟩

/-- The per-order part of the reachable-state invariant: a tracked (queued)
order is never WIP, its completion stamp agrees with its status, and all its
item codes resolve in the catalog. -/
def QueueOrderOK (s : WMS) (o : Order) : Prop :=
  o.status ≠ OrderStatus.WIP
  ∧ (o.completed_at.isSome ↔ o.status = OrderStatus.COMPLETE)
  ∧ (∀ it ∈ o.items, (lookupProduct s.products it.product_code).isSome)

/-- The reachable-state invariant: every queued order is `QueueOrderOK`, and
the capability index agrees with a fresh rebuild from the registry. -/
def WMSInv (s : WMS) : Prop :=
  (∀ o ∈ s.orders_queue, QueueOrderOK s o)
  ∧ (∀ pt, s.product_group_mapping pt = update_product_group_mapping s.staff_members pt)

theorem inv_init : WMSInv WMS.init := by
  constructor
  · intro o ho
    simp [WMS.init] at ho
  · intro pt
    rfl

theorem staff_login_queue (s : WMS) (staff_id : String) :
    (staff_login s staff_id).1.orders_queue = s.orders_queue := by
  unfold staff_login
  split <;> rfl

theorem staff_login_products (s : WMS) (staff_id : String) :
    (staff_login s staff_id).1.products = s.products := by
  unfold staff_login
  split <;> rfl

theorem staff_logout_queue (s : WMS) (staff_id : String) :
    (staff_logout s staff_id).1.orders_queue = s.orders_queue := by
  unfold staff_logout
  split <;> rfl

theorem staff_logout_products (s : WMS) (staff_id : String) :
    (staff_logout s staff_id).1.products = s.products := by
  unfold staff_logout
  split <;> rfl

theorem inv_login (s : WMS) (staff_id : String) (h : WMSInv s) :
    WMSInv (staff_login s staff_id).1 := by
  constructor
  · intro o ho
    rw [staff_login_queue] at ho
    have := h.1 o ho
    unfold QueueOrderOK at this ⊢
    rwa [staff_login_products]
  · show ∀ pt, _
    unfold staff_login
    split
    · intro pt
      rfl
    · exact h.2

theorem inv_logout (s : WMS) (staff_id : String) (h : WMSInv s) :
    WMSInv (staff_logout s staff_id).1 := by
  constructor
  · intro o ho
    rw [staff_logout_queue] at ho
    have := h.1 o ho
    unfold QueueOrderOK at this ⊢
    rwa [staff_logout_products]
  · show ∀ pt, _
    unfold staff_logout
    split
    · intro pt
      rfl
    · exact h.2

theorem inv_place (env : Env) (s : WMS) (items : List ItemRequest) (h : WMSInv s) :
    WMSInv (place_order env s items).1 := by
  simp only [place_order]
  split
  · exact h
  · case _ hne =>
      constructor
      · intro o ho
        simp only [List.mem_append, List.mem_singleton] at ho
        rcases ho with ho | ho
        · exact h.1 o ho
        · subst ho
          refine ⟨by simp, by simp, ?_⟩
          intro it hit
          simp only [List.mem_filterMap] at hit
          obtain ⟨req, _, hreq⟩ := hit
          cases hl : lookupProduct s.products req.product_code with
          | none => simp [hl] at hreq
          | some product =>
              simp only [hl] at hreq
              have : it.product_code = req.product_code := by
                cases hreq
                rfl
              rw [this, hl]
              rfl
      · exact h.2

theorem inv_process (s : WMS) (h : WMSInv s) : WMSInv (process_orders s).1 := by
  constructor
  · intro o ho
    rw [process_orders_queue] at ho
    have hmem := (List.mem_filter.mp ho).1
    have := h.1 o hmem
    unfold QueueOrderOK at this ⊢
    rwa [process_orders_products]
  · intro pt
    rw [process_orders_mapping, process_orders_staff]
    exact h.2 pt

theorem inv_complete (s : WMS) (n pc : String) (t : Nat) (h : WMSInv s) :
    WMSInv (complete_order_item s n pc t).1 := by
  unfold complete_order_item
  cases hf : s.orders_queue.find? (fun o => o.order_number = n) with
  | none => exact h
  | some o0 =>
      constructor
      · intro o ho
        simp only at ho
        rcases updateFirst_mem ho with hmem | ⟨y, hy, hxy⟩
        · exact h.1 o hmem
        · subst hxy
          have hyok := h.1 y hy
          refine ⟨by simp [Order.update_status], by simp [Order.update_status], ?_⟩
          intro it hit
          exact hyok.2.2 it hit
      · exact h.2

/-- Every reachable state satisfies the invariant. -/
theorem reachable_inv (s : WMS) (h : Reachable s) : WMSInv s := by
  induction h with
  | init => exact inv_init
  | step s' op _ ih =>
      cases op with
      | login staff_id => exact inv_login s' staff_id ih
      | logout staff_id => exact inv_logout s' staff_id ih
      | placeOrder env items => exact inv_place env s' items ih
      | processOrders => exact inv_process s' ih
      | completeOrderItem n pc t => exact inv_complete s' n pc t ih

/-- In every reachable state, every item of every queued order resolves in
the catalog — the `KeyError` branch of `process_orders` is dead code. -/
theorem reachable_codes_valid (s : WMS) (h : Reachable s) :
    ∀ o ∈ s.orders_queue, ∀ it ∈ o.items,
      (lookupProduct s.products it.product_code).isSome := by
  intro o ho
  exact ((reachable_inv s h).1 o ho).2.2

/-! ## Generic find?/updateFirst decompositions -/

theorem find?_decomp {α : Type} {p : α → Bool} {l : List α} {x : α}
    (h : l.find? p = some x) :
    ∃ pre post, l = pre ++ x :: post ∧ (∀ y ∈ pre, p y = false) ∧ p x = true := by
  induction l with
  | nil => simp at h
  | cons a as ih =>
      by_cases hp : p a
      · rw [List.find?_cons_of_pos _ hp] at h
        cases h
        exact ⟨[], as, rfl, by simp, hp⟩
      · rw [List.find?_cons_of_neg _ hp] at h
        obtain ⟨pre, post, hl, hpre, hx⟩ := ih h
        refine ⟨a :: pre, post, by rw [hl, List.cons_append], ?_, hx⟩
        intro y hy
        rcases List.mem_cons.mp hy with rfl | hy
        · exact Bool.eq_false_iff.mpr hp
        · exact hpre y hy

theorem find?_of_decomp {α : Type} {p : α → Bool} (pre post : List α) (x : α)
    (hpre : ∀ y ∈ pre, p y = false) (hx : p x = true) :
    (pre ++ x :: post).find? p = some x := by
  induction pre with
  | nil => simpa using List.find?_cons_of_pos _ hx
  | cons a as ih =>
      rw [List.cons_append, List.find?_cons_of_neg]
      · exact ih fun y hy => hpre y (List.mem_cons_of_mem _ hy)
      · simp [hpre a (by simp)]

theorem updateFirst_of_decomp {α : Type} {p : α → Bool} (f : α → α)
    (pre post : List α) (x : α)
    (hpre : ∀ y ∈ pre, p y = false) (hx : p x = true) :
    updateFirst p f (pre ++ x :: post) = pre ++ f x :: post := by
  induction pre with
  | nil => simp [updateFirst, hx]
  | cons a as ih =>
      rw [List.cons_append]
      unfold updateFirst
      rw [hpre a (by simp)]
      simp only [Bool.false_eq_true, if_neg, not_false_iff, List.cons_append]
      rw [ih fun y hy => hpre y (List.mem_cons_of_mem _ hy)]

theorem statusOf_congr {s s' : WMS} (n : String)
    (h : s'.orders_queue = s.orders_queue) : statusOf s' n = statusOf s n := by
  unfold statusOf
  rw [h]

/-! ## The claims -/

/-- C4: calling `process_orders` twice consecutively with no intervening
state change yields the empty list on the second call. -/
theorem C4_dispatch_idempotent (s : WMS) :
    (process_orders (process_orders s).1).2 = [] := by
  have hd : dispatchable (process_orders s).1 = dispatchable s := rfl
  rw [process_orders_processed, hd, process_orders_queue, List.filter_filter]
  have hff : ∀ o : Order, (dispatchable s o && !(dispatchable s o)) = false := by
    intro o
    cases dispatchable s o <;> rfl
  simp [hff]

/-- C7: `process_orders` scans the queue in insertion order — the returned
list is exactly the dispatchable orders in queue order (set to WIP), the
orders left behind are exactly the non-dispatchable ones in their original
relative order, and the new queue is a sublist of (never a reordering of)
the old queue. -/
theorem C7_fifo_preservation (s : WMS) :
    (process_orders s).2
        = (s.orders_queue.filter (dispatchable s)).map
            (fun o => o.update_status OrderStatus.WIP 0)
    ∧ (process_orders s).1.orders_queue
        = s.orders_queue.filter (fun o => !(dispatchable s o))
    ∧ List.Sublist (process_orders s).1.orders_queue s.orders_queue := by
  refine ⟨process_orders_processed s, process_orders_queue s, ?_⟩
  rw [process_orders_queue]
  exact List.filter_sublist _

/-- C2: all-or-nothing dispatch — a queued PLACED order one of whose items
has a category with zero available staff is left in the queue completely
unchanged by `process_orders`, and is not part of the returned list,
regardless of the other items' categories. -/
theorem C2_all_or_nothing (s : WMS) (o : Order) (it : OrderItem) (p : Product)
    (ho : o ∈ s.orders_queue) (hst : o.status = OrderStatus.PLACED)
    (hit : it ∈ o.items)
    (hp : lookupProduct s.products it.product_code = some p)
    (hm : s.product_group_mapping p.product_type = []) :
    o ∈ (process_orders s).1.orders_queue ∧ o ∉ (process_orders s).2 := by
  have hna : order_assignable s o = false := by
    unfold order_assignable
    rw [List.all_eq_false]
    exact ⟨it, hit, by simp [hp, hm]⟩
  have hnd : dispatchable s o = false := by
    simp [dispatchable, hna]
  constructor
  · rw [process_orders_queue]
    exact List.mem_filter.mpr ⟨ho, by simp [hnd]⟩
  · rw [process_orders_processed]
    intro hmem
    obtain ⟨y, _, hxy⟩ := List.mem_map.mp hmem
    have hwip : o.status = OrderStatus.WIP := by
      rw [← hxy]
      simp [Order.update_status]
    rw [hst] at hwip
    exact OrderStatus.noConfusion hwip

/-- C6: `place_order` fails (the `ValueError`, modelled as `none`) exactly
when no requested product code resolves in the catalog — unknown codes are
dropped item by item without failing the call — and on failure the state,
in particular the pending queue, is unchanged. -/
theorem C6_invalid_order (env : Env) (s : WMS) (items : List ItemRequest) :
    ((place_order env s items).2 = none
        ↔ ∀ req ∈ items, lookupProduct s.products req.product_code = none)
    ∧ ((place_order env s items).2 = none → (place_order env s items).1 = s) := by
  have hchar :
      (items.filterMap
        (fun item =>
          match lookupProduct s.products item.product_code with
          | none => none
          | some product =>
              some { product_code := item.product_code
                     quantity := item.quantity
                     toppings := item.toppings
                     price := product.price * (item.quantity : ℚ) : OrderItem })) = []
      ↔ ∀ req ∈ items, lookupProduct s.products req.product_code = none := by
    rw [List.filterMap_eq_nil_iff]
    constructor
    · intro h req hreq
      have := h req hreq
      cases hl : lookupProduct s.products req.product_code with
      | none => rfl
      | some product => simp [hl] at this
    · intro h req hreq
      rw [h req hreq]
  simp only [place_order]
  split
  · case _ hemp =>
      rw [List.isEmpty_iff] at hemp
      exact ⟨by simpa [hemp] using hchar.mp hemp, fun _ => rfl⟩
  · case _ hemp =>
      have hne : ¬ ∀ req ∈ items, lookupProduct s.products req.product_code = none := by
        intro hall
        rw [← hchar] at hall
        exact hemp (by simp [hall])
      exact ⟨⟨fun h => Option.noConfusion h, fun h => absurd h hne⟩,
             fun h => Option.noConfusion h⟩

/-- C3: after any `staff_login` or `staff_logout` call on a reachable state,
the capability index entry of every category is exactly the (insertion-ordered)
set of currently logged-in staff whose skill set contains that category; in
particular the index never contains a staff member who is not logged in. -/
theorem C3_index_consistency (s : WMS) (h : Reachable s) (staff_id : String) :
    (∀ pt, (staff_login s staff_id).1.product_group_mapping pt
        = (staff_login s staff_id).1.staff_members.filter
            (fun st => st.logged_in && st.skills.contains pt))
    ∧ (∀ pt, (staff_logout s staff_id).1.product_group_mapping pt
        = (staff_logout s staff_id).1.staff_members.filter
            (fun st => st.logged_in && st.skills.contains pt))
    ∧ (∀ pt st, st ∈ (staff_login s staff_id).1.product_group_mapping pt
        → st.logged_in = true)
    ∧ (∀ pt st, st ∈ (staff_logout s staff_id).1.product_group_mapping pt
        → st.logged_in = true) := by
  have h1 := (inv_login s staff_id (reachable_inv s h)).2
  have h2 := (inv_logout s staff_id (reachable_inv s h)).2
  refine ⟨?_, ?_, ?_, ?_⟩
  · intro pt
    rw [h1 pt, update_product_group_mapping_eq_filter]
  · intro pt
    rw [h2 pt, update_product_group_mapping_eq_filter]
  · intro pt st hmem
    rw [h1 pt, update_product_group_mapping_eq_filter] at hmem
    have hprop := (List.mem_filter.mp hmem).2
    exact ((Bool.and_eq_true _ _).mp hprop).1
  · intro pt st hmem
    rw [h2 pt, update_product_group_mapping_eq_filter] at hmem
    have hprop := (List.mem_filter.mp hmem).2
    exact ((Bool.and_eq_true _ _).mp hprop).1

/-- C8: `complete_order_item` returns `false` and mutates nothing when no
tracked order carries the given order_number; when one does, it returns
`true` and replaces the first such order in place by the same order with
status COMPLETE and `completed_at` stamped — regardless of which
product_code is passed (the argument is never inspected). -/
theorem C8_complete_order_item (s : WMS) (n pc : String) (t : Nat) :
    ((¬ ∃ o ∈ s.orders_queue, o.order_number = n) →
        complete_order_item s n pc t = (s, false))
    ∧ ((∃ o ∈ s.orders_queue, o.order_number = n) →
        (complete_order_item s n pc t).2 = true
        ∧ ∃ pre o1 post,
            s.orders_queue = pre ++ o1 :: post
            ∧ (∀ y ∈ pre, y.order_number ≠ n)
            ∧ o1.order_number = n
            ∧ (complete_order_item s n pc t).1.orders_queue
                = pre ++ ({ o1 with
                            status := OrderStatus.COMPLETE
                            completed_at := some t } : Order) :: post)
    ∧ (∀ pc' : String, complete_order_item s n pc t = complete_order_item s n pc' t) := by
  refine ⟨?_, ?_, fun _ => rfl⟩
  · intro hne
    have hfind : s.orders_queue.find? (fun o => o.order_number = n) = none := by
      rw [List.find?_eq_none]
      intro x hx
      simp only [decide_eq_true_eq]
      exact fun hxn => hne ⟨x, hx, hxn⟩
    simp [complete_order_item, hfind]
  · intro hex
    have hsome : (s.orders_queue.find? (fun o => o.order_number = n)).isSome := by
      rw [List.find?_isSome]
      obtain ⟨o, ho, hon⟩ := hex
      exact ⟨o, ho, by simp [hon]⟩
    obtain ⟨o1, hfind⟩ := Option.isSome_iff_exists.mp hsome
    obtain ⟨pre, post, hdec, hpre, ho1⟩ := find?_decomp hfind
    refine ⟨by simp [complete_order_item, hfind], pre, o1, post, hdec, ?_, ?_, ?_⟩
    · intro y hy
      have := hpre y hy
      simpa using this
    · simpa using ho1
    · have hupd : o1.update_status OrderStatus.COMPLETE t
          = ({ o1 with
               status := OrderStatus.COMPLETE
               completed_at := some t } : Order) := by
        simp [Order.update_status]
      simp only [complete_order_item, hfind]
      rw [hdec, updateFirst_of_decomp _ _ _ _ hpre ho1, hupd]

/-- C9: for every reachable state, `completed_at` is set iff the status is
COMPLETE — both for every tracked (queued) order and for every order a
dispatch pass returns. -/
theorem C9_completed_at_iff (s : WMS) (h : Reachable s) :
    (∀ o ∈ s.orders_queue, (o.completed_at.isSome ↔ o.status = OrderStatus.COMPLETE))
    ∧ (∀ o ∈ (process_orders s).2,
        (o.completed_at.isSome ↔ o.status = OrderStatus.COMPLETE)) := by
  have hinv := reachable_inv s h
  constructor
  · exact fun o ho => (hinv.1 o ho).2.1
  · intro o ho
    rw [process_orders_processed] at ho
    obtain ⟨y, hy, rfl⟩ := List.mem_map.mp ho
    have hyf := List.mem_filter.mp hy
    have hypl : y.status = OrderStatus.PLACED := by
      have hb := hyf.2
      unfold dispatchable at hb
      have := ((Bool.and_eq_true _ _).mp hb).1
      simpa using this
    have hnone : y.completed_at = none := by
      have hiff := (hinv.1 y hyf.1).2.1
      cases hcc : y.completed_at with
      | none => rfl
      | some v =>
          exfalso
          have hcomp : y.status = OrderStatus.COMPLETE := hiff.mp (by simp [hcc])
          rw [hypl] at hcomp
          exact OrderStatus.noConfusion hcomp
    constructor
    · intro hsome
      exfalso
      simp [Order.update_status, hnone] at hsome
    · intro hcomp
      exfalso
      simp [Order.update_status] at hcomp

/-- C10: in every reachable state no tracked (queued) order is WIP — a
successful dispatch removes the order from the queue — so
`get_orders_by_status` at WIP always returns the empty list, and
`complete_order_item` on an order_number carried by no queued order (such as
a dispatched order's number, absent duplicates) returns `false`. -/
theorem C10_no_wip_tracked (s : WMS) (h : Reachable s) :
    (∀ o ∈ s.orders_queue, o.status ≠ OrderStatus.WIP)
    ∧ get_orders_by_status s OrderStatus.WIP = []
    ∧ (∀ n pc t, (¬ ∃ o ∈ s.orders_queue, o.order_number = n) →
        (complete_order_item s n pc t).2 = false) := by
  have hinv := reachable_inv s h
  refine ⟨fun o ho => (hinv.1 o ho).1, ?_, ?_⟩
  · unfold get_orders_by_status
    rw [List.filter_eq_nil_iff]
    intro o ho
    simp only [decide_eq_true_eq]
    exact (hinv.1 o ho).1
  · intro n pc t hne
    have hfind : s.orders_queue.find? (fun o => o.order_number = n) = none := by
      rw [List.find?_eq_none]
      intro x hx
      simp only [decide_eq_true_eq]
      exact fun hxn => hne ⟨x, hx, hxn⟩
    simp [complete_order_item, hfind]

/-! ## Status changes of tracked orders (C1) -/

theorem statusOf_eq_some_iff {s : WMS} {n : String} {st : OrderStatus} :
    statusOf s n = some st
      ↔ ∃ o, s.orders_queue.find? (fun o => o.order_number = n) = some o
          ∧ o.status = st := by
  unfold statusOf
  cases h : s.orders_queue.find? (fun o => o.order_number = n) <;> simp [h]

theorem find?_filter_keep {α : Type} {p q : α → Bool} {l : List α} {x : α}
    (h : l.find? p = some x) (hq : q x = true) :
    (l.filter q).find? p = some x := by
  obtain ⟨pre, post, hl, hpre, hx⟩ := find?_decomp h
  subst hl
  rw [List.filter_append]
  simp only [List.filter_cons, hq, if_true]
  exact find?_of_decomp _ _ _ (fun y hy => hpre y (List.mem_of_mem_filter hy)) hx

theorem status_of_dispatchable {s : WMS} {o : Order}
    (h : dispatchable s o = true) : o.status = OrderStatus.PLACED := by
  unfold dispatchable at h
  have := ((Bool.and_eq_true _ _).mp h).1
  simpa using this

theorem place_order_queue_cases (env : Env) (s : WMS) (items : List ItemRequest) :
    (place_order env s items).1.orders_queue = s.orders_queue
    ∨ ∃ o, (place_order env s items).1.orders_queue = s.orders_queue ++ [o] := by
  simp only [place_order]
  split
  · exact Or.inl rfl
  · exact Or.inr ⟨_, rfl⟩

/-- C1 (amended): under any public operation on a reachable state, a tracked
order's observed status only ever changes from PLACED directly to COMPLETE
(via `complete_order_item`).  A dispatch sets a PLACED order to WIP but
simultaneously removes it from the tracked queue, and WIP orders are never
tracked, so a WIP-to-COMPLETE change never occurs, while PLACED-to-COMPLETE
does. -/
theorem C1_amended_status_changes (s : WMS) (op : Op) (n : String)
    (st st' : OrderStatus) (h : Reachable s)
    (h1 : statusOf s n = some st) (h2 : statusOf (applyOp s op) n = some st')
    (hne : st ≠ st') :
    st = OrderStatus.PLACED ∧ st' = OrderStatus.COMPLETE := by
  obtain ⟨o, hfo, hos⟩ := statusOf_eq_some_iff.mp h1
  cases op with
  | login staff_id =>
      replace h2 : statusOf (staff_login s staff_id).1 n = some st' := h2
      rw [statusOf_congr n (staff_login_queue s staff_id), h1] at h2
      cases h2
      exact absurd rfl hne
  | logout staff_id =>
      replace h2 : statusOf (staff_logout s staff_id).1 n = some st' := h2
      rw [statusOf_congr n (staff_logout_queue s staff_id), h1] at h2
      cases h2
      exact absurd rfl hne
  | placeOrder env items =>
      replace h2 : statusOf (place_order env s items).1 n = some st' := h2
      rcases place_order_queue_cases env s items with hq | ⟨onew, hq⟩
      · rw [statusOf_congr n hq, h1] at h2
        cases h2
        exact absurd rfl hne
      · exfalso
        apply hne
        obtain ⟨o', hfo', hos'⟩ := statusOf_eq_some_iff.mp h2
        rw [hq, List.find?_append, hfo] at hfo'
        cases hfo'
        rw [← hos, ← hos']
  | processOrders =>
      obtain ⟨o', hfo', hos'⟩ := statusOf_eq_some_iff.mp h2
      rw [show (applyOp s Op.processOrders).orders_queue
            = (process_orders s).1.orders_queue from rfl,
          process_orders_queue] at hfo'
      by_cases hds : dispatchable s o = true
      · have hst : st = OrderStatus.PLACED := by
          rw [← hos]
          exact status_of_dispatchable hds
        have ho'mem : o' ∈ s.orders_queue :=
          List.mem_of_mem_filter (List.mem_of_find?_eq_some hfo')
        have hnw : o'.status ≠ OrderStatus.WIP := ((reachable_inv s h).1 o' ho'mem).1
        refine ⟨hst, ?_⟩
        cases hc : o'.status with
        | PLACED => exact absurd (by rw [← hos', hc, hst]) hne
        | WIP => exact absurd hc hnw
        | COMPLETE => rw [← hos', hc]
      · have hkeep : (fun o => !(dispatchable s o)) o = true := by
          simp [Bool.not_eq_true] at hds ⊢
          exact hds
        rw [find?_filter_keep hfo hkeep] at hfo'
        cases hfo'
        exact absurd (hos.symm.trans hos') hne
  | completeOrderItem m pc t =>
      cases hf : s.orders_queue.find? (fun o => o.order_number = m) with
      | none =>
          have hstate : (applyOp s (Op.completeOrderItem m pc t)).orders_queue
              = s.orders_queue := by
            show (complete_order_item s m pc t).1.orders_queue = _
            simp [complete_order_item, hf]
          rw [statusOf_congr n hstate, h1] at h2
          cases h2
          exact absurd rfl hne
      | some o0 =>
          obtain ⟨pre, post, hdec, hpre, ho0⟩ := find?_decomp hf
          have hqueue : (applyOp s (Op.completeOrderItem m pc t)).orders_queue
              = pre ++ o0.update_status OrderStatus.COMPLETE t :: post := by
            show (complete_order_item s m pc t).1.orders_queue = _
            simp only [complete_order_item, hf]
            rw [hdec, updateFirst_of_decomp _ _ _ _ hpre ho0]
          obtain ⟨o', hfo', hos'⟩ := statusOf_eq_some_iff.mp h2
          rw [hqueue] at hfo'
          have ho0m : o0.order_number = m := by simpa using ho0
          by_cases hmn : m = n
          · subst hmn
            have hfn : s.orders_queue.find?
                (fun o => o.order_number = m) = some o0 := hf
            rw [hfo] at hfn
            cases hfn
            have hupdn : (o.update_status OrderStatus.COMPLETE t).order_number
                = o.order_number := rfl
            have hfind' : (pre ++ o.update_status OrderStatus.COMPLETE t :: post).find?
                (fun o' => o'.order_number = m) = some (o.update_status OrderStatus.COMPLETE t) :=
              find?_of_decomp _ _ _ hpre (by simp [hupdn, ho0m])
            rw [hfind'] at hfo'
            cases hfo'
            have homem : o ∈ s.orders_queue := List.mem_of_find?_eq_some hfo
            have hnw : o.status ≠ OrderStatus.WIP := ((reachable_inv s h).1 o homem).1
            have hst' : st' = OrderStatus.COMPLETE := by
              rw [← hos']
              rfl
            refine ⟨?_, hst'⟩
            cases hc : o.status with
            | PLACED =>
                rw [← hos]
                exact hc
            | WIP => exact absurd hc hnw
            | COMPLETE =>
                exfalso
                apply hne
                rw [← hos, hc, hst']
          · exfalso
            apply hne
            have hnot0 : (fun o' : Order => decide (o'.order_number = n)) o0 = false := by
              simp [ho0m, hmn]
            have hnotu : (fun o' : Order => decide (o'.order_number = n))
                (o0.update_status OrderStatus.COMPLETE t) = false := by
              simp only [show (o0.update_status OrderStatus.COMPLETE t).order_number
                  = o0.order_number from rfl]
              simp [ho0m, hmn]
            rw [List.find?_append, List.find?_cons_of_neg _ (by simp_all), ← List.find?_append]
                at hfo'
            rw [hdec, List.find?_append, List.find?_cons_of_neg _ (by simp_all),
                ← List.find?_append] at hfo
            rw [hfo] at hfo'
            cases hfo'
            rw [← hos, ← hos']

/-! ## Concrete runs for counterexamples and witnesses -/

def cEnv : Env := ⟨7, "01012025", "ABC"⟩

def cS1 : WMS := applyOp WMS.init (Op.placeOrder cEnv [⟨"P001", 1, []⟩])

def cOp : Op := Op.completeOrderItem "ORD01012025ABC" "P001" 9

/-- C1 (counterexample): the claimed transition system — every observed
status change is PLACED→WIP or WIP→COMPLETE — is false: placing an order and
then calling `complete_order_item` on it changes its tracked status directly
from PLACED to COMPLETE. -/
theorem C1_claim_counterexample :
    ¬ (∀ (s : WMS) (op : Op) (n : String) (st st' : OrderStatus),
        Reachable s → statusOf s n = some st →
        statusOf (applyOp s op) n = some st' → st ≠ st' →
        ((st = OrderStatus.PLACED ∧ st' = OrderStatus.WIP)
          ∨ (st = OrderStatus.WIP ∧ st' = OrderStatus.COMPLETE))) := by
  intro hclaim
  have h := hclaim cS1 cOp "ORD01012025ABC" OrderStatus.PLACED OrderStatus.COMPLETE
      (Reachable.step WMS.init _ Reachable.init) rfl rfl (by decide)
  rcases h with ⟨_, h2⟩ | ⟨h1, _⟩
  · exact OrderStatus.noConfusion h2
  · exact OrderStatus.noConfusion h1

theorem C1_amended_witness :
    OrderStatus.PLACED = OrderStatus.PLACED
    ∧ OrderStatus.COMPLETE = OrderStatus.COMPLETE :=
  C1_amended_status_changes cS1 cOp "ORD01012025ABC"
    OrderStatus.PLACED OrderStatus.COMPLETE
    (Reachable.step WMS.init _ Reachable.init) rfl rfl (by decide)

def c5Env : Env := ⟨11, "11102025", "7F2"⟩

/-- C5 (bug witness): two successful `place_order` calls in one process
lifetime return orders with the same order_number when the environment draws
the same date string and the same three-character uuid suffix — the
generator has no collision handling, so uniqueness is not guaranteed. -/
theorem C5_order_number_collision :
    ((place_order c5Env WMS.init [⟨"P001", 1, []⟩]).2.map Order.order_number
        = some "ORD111020257F2")
    ∧ ((place_order c5Env
          (place_order c5Env WMS.init [⟨"P001", 1, []⟩]).1
          [⟨"P001", 1, []⟩]).2.map Order.order_number
        = some "ORD111020257F2") :=
  ⟨rfl, rfl⟩

def w2S1 : WMS := (staff_login WMS.init "S001").1

def w2Res : WMS × Option Order :=
  place_order ⟨5, "02022025", "0F3"⟩ w2S1 [⟨"P002", 1, []⟩]

def w2Order : Order := w2Res.2.getD ⟨"", [], OrderStatus.PLACED, 0, none⟩

def w2Item : OrderItem := w2Order.items.getD 0 ⟨"", 0, [], 0⟩

def w2Prod : Product :=
  ⟨"P002", "Pepperoni Pizza", (1099 : ℚ) / 100, ProductType.NV_PIZZA⟩

theorem C2_witness :
    w2Order ∈ (process_orders w2Res.1).1.orders_queue
    ∧ w2Order ∉ (process_orders w2Res.1).2 :=
  C2_all_or_nothing w2Res.1 w2Order w2Item w2Prod
    (List.mem_singleton_self w2Order) rfl
    (List.mem_singleton_self w2Item) rfl (by decide)

theorem C3_witness :
    (staff_login WMS.init "S001").1.product_group_mapping ProductType.VEG_PIZZA
      = (staff_login WMS.init "S001").1.staff_members.filter
          (fun st => st.logged_in && st.skills.contains ProductType.VEG_PIZZA) :=
  (C3_index_consistency WMS.init Reachable.init "S001").1 ProductType.VEG_PIZZA

theorem C6_witness :
    (place_order ⟨1, "03032025", "AAA"⟩ WMS.init [⟨"NOPE", 1, []⟩]).2 = none
    ∧ (place_order ⟨1, "03032025", "AAA"⟩ WMS.init [⟨"NOPE", 1, []⟩]).1
        = WMS.init :=
  ⟨(C6_invalid_order ⟨1, "03032025", "AAA"⟩ WMS.init [⟨"NOPE", 1, []⟩]).1.mpr
      (by decide),
   (C6_invalid_order ⟨1, "03032025", "AAA"⟩ WMS.init [⟨"NOPE", 1, []⟩]).2
      ((C6_invalid_order ⟨1, "03032025", "AAA"⟩ WMS.init [⟨"NOPE", 1, []⟩]).1.mpr
        (by decide))⟩

def w8S : WMS :=
  (place_order ⟨3, "05042024", "B2C"⟩ WMS.init [⟨"P001", 1, []⟩]).1

theorem C8_witness :
    complete_order_item w8S "ORDX" "P001" 7 = (w8S, false)
    ∧ (complete_order_item w8S "ORD05042024B2C" "P001" 7).2 = true :=
  ⟨(C8_complete_order_item w8S "ORDX" "P001" 7).1 (by decide),
   ((C8_complete_order_item w8S "ORD05042024B2C" "P001" 7).2.1 (by decide)).1⟩

def w9Env : Env := ⟨4, "06062025", "C3D"⟩

def w9S1 : WMS := applyOp WMS.init (Op.placeOrder w9Env [⟨"B001", 1, []⟩])

def w9S2 : WMS := applyOp w9S1 (Op.completeOrderItem "ORD06062025C3D" "B001" 8)

def w9Order : Order :=
  (w9S2.orders_queue.find? (fun o => o.order_number = "ORD06062025C3D")).getD
    ⟨"", [], OrderStatus.PLACED, 0, none⟩

theorem C9_witness :
    w9Order.completed_at.isSome ↔ w9Order.status = OrderStatus.COMPLETE :=
  (C9_completed_at_iff w9S2
      (Reachable.step w9S1 _ (Reachable.step WMS.init _ Reachable.init))).1
    w9Order (List.mem_singleton_self w9Order)

def w10S : WMS :=
  applyOp (applyOp WMS.init (Op.login "S001"))
    (Op.placeOrder ⟨2, "07072025", "D4E"⟩ [⟨"D001", 1, []⟩])

theorem C10_witness :
    get_orders_by_status w10S OrderStatus.WIP = []
    ∧ (complete_order_item w10S "ORDMISSING" "P001" 0).2 = false :=
  ⟨(C10_no_wip_tracked w10S
      (Reachable.step _ _ (Reachable.step WMS.init _ Reachable.init))).2.1,
   (C10_no_wip_tracked w10S
      (Reachable.step _ _ (Reachable.step WMS.init _ Reachable.init))).2.2
    "ORDMISSING" "P001" 0 (by decide)⟩
